import Mathlib

/-!
Verification development for the TrendRadar aggregation core.

The data model is embedded from the SQL schema (`sources`, `headlines`,
`headline_occurrences`, `group_words`, `crawl_sessions` tables); the
`GET /api/headlines` route and the `getTodayHeadlines` query are embedded
from the Next.js/Prisma sources.  Components whose implementation lives
outside the shown sources (the dedup tracker, the keyword filter engine,
the report-mode selection and the crawl-session manager) are modelled
from the specification, as marked on each definition.

Timestamps are modelled as natural numbers (milliseconds since the epoch).
-/

namespace TrendRadar

/-- One row of the `sources` table: a news platform. -/
structure Source where
  id : Nat
  platformId : String
  platformName : String
  isActive : Bool
  deriving DecidableEq

/-- One row of the `headlines` table.  The schema declares
`UNIQUE(source_id, title)` and both timestamps NOT NULL. -/
structure Headline where
  id : Nat
  sourceId : Nat
  title : String
  url : Option String
  mobileUrl : Option String
  firstSeenAt : Nat
  lastSeenAt : Nat
  deriving DecidableEq

/-- One row of the `headline_occurrences` table: one observation of a
headline at a point in time.  `rank` and `crawled_at` are NOT NULL. -/
structure Occurrence where
  id : Nat
  headlineId : Nat
  rank : Int
  crawledAt : Nat
  deriving DecidableEq

/-- The relational store restricted to the entities the claims need. -/
structure DB where
  sources : List Source
  headlines : List Headline
  occurrences : List Occurrence
  nextHeadlineId : Nat
  nextOccurrenceId : Nat
  deriving DecidableEq

def emptyDB : DB := ⟨[], [], [], 0, 0⟩

/-! ## Dedup & Occurrence Tracker -/

/-- Collapse every run of consecutive spaces to a single space. -/
def squeezeSpaces : List Char → List Char
  | [] => []
  | [c] => [c]
  | c :: d :: rest =>
    if c = ' ' ∧ d = ' ' then squeezeSpaces (d :: rest)
    else c :: squeezeSpaces (d :: rest)

/-- Modelled from the spec: title normalization of the Dedup Tracker
(trim, collapse whitespace); the implementing module `db/repository.py`
is not among the shown sources. -/
def normalizeTitle (t : String) : String :=
  String.mk ((((squeezeSpaces t.toList).dropWhile (fun c => c = ' ')).reverse.dropWhile
    (fun c => c = ' ')).reverse)

/-- One raw observation handed to the Dedup Tracker by a crawl. -/
structure Obs where
  sourceId : Nat
  title : String
  url : Option String
  mobileUrl : Option String
  rank : Int
  observedAt : Nat
  deriving DecidableEq

/-- The dedup key of a stored headline: its source and (already
normalized) title. -/
def headlineKey (h : Headline) : Nat × String := (h.sourceId, h.title)

/-- The dedup key of an incoming observation. -/
def obsKey (o : Obs) : Nat × String := (o.sourceId, normalizeTitle o.title)

/-- The update applied to a stored headline when its key is re-observed:
`last_seen_at` is raised to the max, everything else is untouched. -/
def updHeadline (o : Obs) (h2 : Headline) : Headline :=
  if headlineKey h2 == obsKey o then
    { h2 with lastSeenAt := max h2.lastSeenAt o.observedAt }
  else h2

/-- The fresh headline row created for a first-observed key, with
`first_seen_at = last_seen_at = observedAt`. -/
def newHeadline (db : DB) (o : Obs) : Headline :=
  ⟨db.nextHeadlineId, o.sourceId, normalizeTitle o.title, o.url, o.mobileUrl,
    o.observedAt, o.observedAt⟩

/-- Modelled from the spec: `recordObservation` of the Dedup & Occurrence
Tracker (the implementing module `db/repository.py` is not among the shown
sources; the schema backing it is).  If a headline with the observation's
key exists, its `last_seen_at` is raised to the max and an occurrence is
appended; otherwise a fresh headline is created with
`first_seen_at = last_seen_at = observedAt` and an occurrence is appended. -/
def recordObservation (db : DB) (o : Obs) : DB :=
  match db.headlines.find? (fun h => headlineKey h == obsKey o) with
  | some h =>
      { db with
        headlines := db.headlines.map (updHeadline o),
        occurrences := db.occurrences ++ [⟨db.nextOccurrenceId, h.id, o.rank, o.observedAt⟩],
        nextOccurrenceId := db.nextOccurrenceId + 1 }
  | none =>
      { db with
        headlines := db.headlines ++ [newHeadline db o],
        occurrences := db.occurrences ++
          [⟨db.nextOccurrenceId, db.nextHeadlineId, o.rank, o.observedAt⟩],
        nextHeadlineId := db.nextHeadlineId + 1,
        nextOccurrenceId := db.nextOccurrenceId + 1 }

/-- Run a sequence of observations against the empty store. -/
def runObs (obs : List Obs) : DB :=
  obs.foldl recordObservation emptyDB

/-- The occurrence appended by `recordObservation db o`. -/
def newOccurrence (db : DB) (o : Obs) : Occurrence :=
  match db.headlines.find? (fun h => headlineKey h == obsKey o) with
  | some h => ⟨db.nextOccurrenceId, h.id, o.rank, o.observedAt⟩
  | none => ⟨db.nextOccurrenceId, db.nextHeadlineId, o.rank, o.observedAt⟩

/-- Deleting a headline cascades to its occurrences
(`ON DELETE CASCADE` on `headline_occurrences.headline_id`). -/
def deleteHeadline (db : DB) (hid : Nat) : DB :=
  { db with
    headlines := db.headlines.filter (fun h => !(h.id == hid)),
    occurrences := db.occurrences.filter (fun oc => !(oc.headlineId == hid)) }

/-- The (first seen, last seen) pair stored for a key, if any. -/
def fstLst (db : DB) (s : Nat) (t : String) : Option (Nat × Nat) :=
  (db.headlines.find? (fun h => headlineKey h == (s, t))).map
    (fun h => (h.firstSeenAt, h.lastSeenAt))

/-- What the spec demands for a key after a sequence of observations:
`first_seen_at` is the first matching observation's timestamp and
`last_seen_at` the maximum over all matching observations. -/
def firstLastSpec (obs : List Obs) (s : Nat) (t : String) : Option (Nat × Nat) :=
  match (obs.filter (fun o => obsKey o == (s, t))).map (fun o => o.observedAt) with
  | [] => none
  | a :: rest => some (a, rest.foldl max a)

/-- Number of stored occurrences belonging to the headline with the given
key (0 when no such headline exists). -/
def occCountFor (db : DB) (s : Nat) (t : String) : Nat :=
  match db.headlines.find? (fun h => headlineKey h == (s, t)) with
  | some h => db.occurrences.countP (fun oc => oc.headlineId == h.id)
  | none => 0

/-! ## Occurrence persistence (NOT NULL constraints) -/

/-- An occurrence write as it arrives at the store, with possibly missing
fields (a partial record). -/
structure RawOccurrence where
  headlineId : Nat
  rank : Option Int
  crawledAt : Option Nat
  deriving DecidableEq

/-- An occurrence insert against the `headline_occurrences` table: the
schema declares `rank INTEGER NOT NULL` and `crawled_at TIMESTAMP NOT
NULL`, so a write missing either field is rejected whole and nothing is
persisted; otherwise exactly one complete row is appended. -/
def insertOccurrence (db : DB) (oid : Nat) (r : RawOccurrence) : Option DB :=
  match r.rank, r.crawledAt with
  | some rk, some t =>
      some { db with occurrences := db.occurrences ++ [⟨oid, r.headlineId, rk, t⟩] }
  | _, _ => none

/-! ## Keyword Filter Engine -/

/-- A word group as the filter engine sees it: the member words of the
`group_words` table split by their `word_type`
(`required` / `normal` / `filter`).  Words and titles are lists of
characters so that case-insensitive substring search is explicit. -/
structure WordGroup where
  requiredWords : List (List Char)
  normalWords : List (List Char)
  filterWords : List (List Char)
  deriving DecidableEq

/-- Case-insensitive substring test of a word in a title. -/
def containsWord (title w : List Char) : Bool :=
  decide (List.IsInfix (w.map Char.toLower) (title.map Char.toLower))

/-- Modelled from the spec: per-group matching of the Keyword Filter
Engine (its implementation in `main.py` is not among the shown sources;
the `group_words` table backing it is).  Filter words are absolute
exclusions checked first; then all required words must occur; then at
least one normal word when any is configured.  An empty title never
matches, and a group with no words of any kind never matches. -/
def matchesGroup (title : List Char) (g : WordGroup) : Bool :=
  if title.isEmpty then false
  else if g.requiredWords.isEmpty && g.normalWords.isEmpty && g.filterWords.isEmpty then false
  else if g.filterWords.any (fun w => containsWord title w) then false
  else if !(g.requiredWords.all (fun w => containsWord title w)) then false
  else if g.normalWords.isEmpty then true
  else g.normalWords.any (fun w => containsWord title w)

/-! ## Crawl Session Manager -/

inductive SessionStatus where
  | running
  | completed
  | failed
  deriving DecidableEq

/-- One row of the `crawl_sessions` table (`status` defaults to
`running`, `completed_at` is nullable). -/
structure Session where
  startedAt : Nat
  completedAt : Option Nat
  sourcesSuccess : List Nat
  sourcesFailed : List Nat
  headlineCount : Nat
  status : SessionStatus
  deriving DecidableEq

/-- Modelled from the spec: `beginSession` of the Crawl Session Manager
(its implementation in `main.py` is not among the shown sources).  A new
session starts `running` with no completion time. -/
def beginSession (startedAt : Nat) : Session :=
  ⟨startedAt, none, [], [], 0, .running⟩

/-- The outcome of polling one source: success with an observation count,
or failure. -/
inductive SourceOutcome where
  | success (count : Nat)
  | failure
  deriving DecidableEq

/-- Modelled from the spec: `recordSourceResult` of the Crawl Session
Manager.  A source failure is recorded without aborting the session; a
terminal session is never modified. -/
def recordSourceResult (s : Session) (sourceId : Nat) (outcome : SourceOutcome) : Session :=
  match s.status with
  | .running =>
      match outcome with
      | .success c =>
          { s with sourcesSuccess := s.sourcesSuccess ++ [sourceId],
                   headlineCount := s.headlineCount + c }
      | .failure => { s with sourcesFailed := s.sourcesFailed ++ [sourceId] }
  | _ => s

/-- Modelled from the spec: `finalizeSession` of the Crawl Session
Manager.  Finalizing a running session sets `completed_at` and moves it to
`failed` when no source succeeded, `completed` otherwise; a terminal
session is never modified. -/
def finalizeSession (s : Session) (endedAt : Nat) : Session :=
  match s.status with
  | .running =>
      { s with completedAt := some endedAt,
               status := if s.sourcesSuccess.isEmpty then .failed else .completed }
  | _ => s

/-- The operations available on a session after `beginSession`. -/
inductive SessionOp where
  | record (sourceId : Nat) (outcome : SourceOutcome)
  | finalize (endedAt : Nat)
  deriving DecidableEq

def applySessionOp (s : Session) : SessionOp → Session
  | .record sid outcome => recordSourceResult s sid outcome
  | .finalize t => finalizeSession s t

/-- A session reachable from `beginSession` by a sequence of operations. -/
def runSession (startedAt : Nat) (ops : List SessionOp) : Session :=
  ops.foldl applySessionOp (beginSession startedAt)

/-! ## Report-mode selection -/

def msPerDay : Nat := 24 * 60 * 60 * 1000

/-- Midnight of the calendar day containing `t`
(`today.setHours(0, 0, 0, 0)` in the source). -/
def startOfDay (t : Nat) : Nat := t / msPerDay * msPerDay

/-- Headlines ordered by `last_seen_at` descending
(`orderBy: lastSeenAt desc` in the Prisma queries). -/
def sortByLastSeenDesc (hs : List Headline) : List Headline :=
  hs.insertionSort (fun a b => b.lastSeenAt ≤ a.lastSeenAt)

/-- Embedded from `getTodayHeadlines` in the Prisma example source: all
headlines with `firstSeenAt >= startOfDay(now)`, ordered by `lastSeenAt`
descending.  This is the daily report-mode selection. -/
def getTodayHeadlines (db : DB) (now : Nat) : List Headline :=
  sortByLastSeenDesc (db.headlines.filter (fun h => startOfDay now ≤ h.firstSeenAt))

/-- Modelled from the spec: the daily-mode headline selection of the
Report Generator — all headlines with `first_seen_at >= startOfDay(asOf)`
(the window of `getTodayHeadlines`). -/
def selectDaily (db : DB) (asOf : Nat) : List Headline :=
  db.headlines.filter (fun h => startOfDay asOf ≤ h.firstSeenAt)

/-- Modelled from the spec: the incremental-mode headline selection of the
Report Generator (its implementation, `detect_new_titles_from_db` in
`main.py`, is not among the shown sources): headlines with
`first_seen_at > sinceLastPush`, strictly; with no last-push timestamp it
behaves as daily mode. -/
def selectIncremental (db : DB) (asOf : Nat) (sinceLastPush : Option Nat) : List Headline :=
  match sinceLastPush with
  | some t => db.headlines.filter (fun h => t < h.firstSeenAt)
  | none => selectDaily db asOf

/-! ## The GET /api/headlines route

Embedded from the Next.js route source: select the headlines of the last
24 hours (`firstSeenAt >= now - 24h`), ordered by `lastSeenAt` descending,
at most 100; for each, the 5 most recent occurrences by `crawledAt`; group
the entries by the source's `platformName`; answer with
`{ success, count, data }`. -/

/-- The headline set the route selects: last-24-hours window, ordered by
`lastSeenAt` descending, first 100. -/
def selectedHeadlines (db : DB) (now : Nat) : List Headline :=
  (sortByLastSeenDesc (db.headlines.filter (fun h => now - msPerDay ≤ h.firstSeenAt))).take 100

/-- The occurrences of one headline ordered by `crawledAt` descending
(`orderBy: crawledAt desc` in the route). -/
def sortedOccurrences (db : DB) (h : Headline) : List Occurrence :=
  (db.occurrences.filter (fun oc => oc.headlineId == h.id)).insertionSort
    (fun a b => b.crawledAt ≤ a.crawledAt)

/-- The `platformName` of a headline's source (the route reads
`headline.source.platformName`). -/
def sourceName (db : DB) (h : Headline) : String :=
  match db.sources.find? (fun s => s.id == h.sourceId) with
  | some s => s.platformName
  | none => ""

/-- One entry of the route's payload, as pushed by the `reduce` callback:
the headline's fields plus the ranks of its 5 most recent occurrences. -/
structure Entry where
  id : Nat
  title : String
  url : Option String
  mobileUrl : Option String
  firstSeenAt : Nat
  lastSeenAt : Nat
  ranks : List Int
  deriving DecidableEq

def entryOf (db : DB) (h : Headline) : Entry :=
  ⟨h.id, h.title, h.url, h.mobileUrl, h.firstSeenAt, h.lastSeenAt,
    ((sortedOccurrences db h).take 5).map (fun oc => oc.rank)⟩

/-- One step of the route's `reduce`: push an entry onto the bucket named
by its source, creating the bucket when absent. -/
def pushEntry (acc : List (String × List Entry)) (name : String) (e : Entry) :
    List (String × List Entry) :=
  if acc.any (fun p => p.1 == name) then
    acc.map (fun p => if p.1 == name then (p.1, p.2 ++ [e]) else p)
  else
    acc ++ [(name, [e])]

/-- The route's `bySource` mapping, built by folding `pushEntry` over the
selected headlines. -/
def buildBySource (db : DB) (hs : List Headline) : List (String × List Entry) :=
  hs.foldl (fun acc h => pushEntry acc (sourceName db h) (entryOf db h)) []

/-- The JSON body the route answers with on the success path. -/
structure ApiResponse where
  success : Bool
  count : Nat
  data : List (String × List Entry)
  deriving DecidableEq

/-- Embedded from the route's `GET` handler (success path). -/
def GET (db : DB) (now : Nat) : ApiResponse :=
  let hs := selectedHeadlines db now
  ⟨true, hs.length, buildBySource db hs⟩

/-! ## Serialized shape of the response

A small JSON value type makes the field names the route serializes
explicit, so that claims about the exact shape of the payload are about
the payload and not about Lean record types. -/

inductive Json where
  | null
  | bool (b : Bool)
  | num (n : Int)
  | str (s : String)
  | arr (xs : List Json)
  | obj (fields : List (String × Json))

def optStrJson : Option String → Json
  | some s => .str s
  | none => .null

/-- The object literal the route pushes for each headline, field for
field. -/
def entryJson (e : Entry) : Json :=
  .obj [("id", .num e.id), ("title", .str e.title), ("url", optStrJson e.url),
        ("mobileUrl", optStrJson e.mobileUrl), ("firstSeenAt", .num e.firstSeenAt),
        ("lastSeenAt", .num e.lastSeenAt), ("ranks", .arr (e.ranks.map Json.num))]

/-- The body passed to `NextResponse.json` on the success path. -/
def responseJson (db : DB) (now : Nat) : Json :=
  .obj [("success", .bool (GET db now).success),
        ("count", .num (GET db now).count),
        ("data", .obj (((GET db now).data).map (fun p => (p.1, Json.arr (p.2.map entryJson)))))]

/-- The keys of a JSON object, in serialization order. -/
def objKeys : Json → List String
  | .obj fields => fields.map (fun p => p.1)
  | _ => []

/-- The entry fields the specification's report-consumer boundary
promises, written from the spec's words for comparison with `entryJson`. -/
def specEntryFields : List String :=
  ["title", "url", "mobileUrl", "firstSeenAt", "lastSeenAt", "ranks"]

/-- The bucket the specification predicts for a name: the entries of
exactly the selected headlines whose source carries that name, in
selection order. -/
def bucketSpec (db : DB) (now : Nat) (n : String) : List Entry :=
  ((selectedHeadlines db now).filter (fun h => sourceName db h == n)).map (entryOf db)

/-- The bucket the response is expected to expose under a name: absent
when no selected headline has that source name. -/
def bucketOpt (db : DB) (now : Nat) (n : String) : Option (List Entry) :=
  if (selectedHeadlines db now).any (fun h => sourceName db h == n) then
    some (bucketSpec db now n)
  else none

/-- Total number of entries across all buckets of an association list. -/
def sumLens (l : List (String × List Entry)) : Nat :=
  (l.map (fun p => p.2.length)).sum

/-! ## Theorems -/

/-- One observation's effect on the (first seen, last seen) pair of a
key: absent keys are created with both timestamps equal, present keys
keep their first-seen and raise their last-seen to the max. -/
def updKey (cur : Option (Nat × Nat)) (ts : Nat) : Option (Nat × Nat) :=
  match cur with
  | none => some (ts, ts)
  | some (f, l) => some (f, max l ts)

theorem headlineKey_updHeadline (o : Obs) (h2 : Headline) :
    headlineKey (updHeadline o h2) = headlineKey h2 := by
  unfold updHeadline
  by_cases hc : (headlineKey h2 == obsKey o) = true
  · rw [if_pos hc]
    rfl
  · rw [if_neg hc]

theorem id_updHeadline (o : Obs) (h2 : Headline) :
    (updHeadline o h2).id = h2.id := by
  unfold updHeadline
  by_cases hc : (headlineKey h2 == obsKey o) = true
  · rw [if_pos hc]
  · rw [if_neg hc]

theorem headlineKey_newHeadline (db : DB) (o : Obs) :
    headlineKey (newHeadline db o) = obsKey o := rfl

theorem key_pred_comp_upd (o : Obs) (s : Nat) (t : String) :
    ((fun h2 => headlineKey h2 == (s, t)) ∘ updHeadline o)
      = (fun h2 => headlineKey h2 == (s, t)) := by
  funext h2
  show (headlineKey (updHeadline o h2) == (s, t)) = (headlineKey h2 == (s, t))
  rw [headlineKey_updHeadline]

theorem fstLst_recordObservation (db : DB) (o : Obs) (s : Nat) (t : String) :
    fstLst (recordObservation db o) s t
      = if obsKey o == (s, t) then updKey (fstLst db s t) o.observedAt
        else fstLst db s t := by
  unfold recordObservation
  cases hf : db.headlines.find? (fun h => headlineKey h == obsKey o) with
  | some h =>
    have hkey : headlineKey h = obsKey o := by
      simpa using List.find?_some hf
    unfold fstLst
    rw [List.find?_map, key_pred_comp_upd]
    by_cases hk : obsKey o = (s, t)
    · have hb : (obsKey o == (s, t)) = true := by simpa using hk
      rw [if_pos hb]
      have hfp : db.headlines.find? (fun h2 => headlineKey h2 == (s, t)) = some h := by
        rw [← hk]
        exact hf
      rw [hfp]
      simp [updKey, updHeadline, hkey]
    · have hb : (obsKey o == (s, t)) = false := by simpa using hk
      rw [hb]
      simp only [Bool.false_eq_true, if_false]
      cases hfind : db.headlines.find? (fun h2 => headlineKey h2 == (s, t)) with
      | none => rfl
      | some h2 =>
        have hkey2 : headlineKey h2 = (s, t) := by
          simpa using List.find?_some hfind
        have hne : ¬ (headlineKey h2 = obsKey o) := by
          rw [hkey2]
          exact fun hc => hk hc.symm
        simp [updHeadline, hne]
  | none =>
    unfold fstLst
    rw [List.find?_append]
    by_cases hk : obsKey o = (s, t)
    · have hb : (obsKey o == (s, t)) = true := by simpa using hk
      rw [if_pos hb]
      have hfp : db.headlines.find? (fun h2 => headlineKey h2 == (s, t)) = none := by
        rw [← hk]
        exact hf
      have hnew : (headlineKey (newHeadline db o) == (s, t)) = true := by
        rw [headlineKey_newHeadline]
        exact hb
      have hfind_new : List.find? (fun h2 => headlineKey h2 == (s, t)) [newHeadline db o]
          = some (newHeadline db o) := by
        simp [List.find?_cons, hnew]
      rw [hfp, hfind_new]
      simp [updKey, newHeadline]
    · have hb : (obsKey o == (s, t)) = false := by simpa using hk
      rw [hb]
      simp only [Bool.false_eq_true, if_false]
      have hnew : (headlineKey (newHeadline db o) == (s, t)) = false := by
        rw [headlineKey_newHeadline]
        exact hb
      have hfind_new : List.find? (fun h2 => headlineKey h2 == (s, t)) [newHeadline db o]
          = none := by
        simp [List.find?_cons, hnew]
      rw [hfind_new]
      simp

/-- Combining an existing bucket content with newly grouped entries. -/
def combineBucket (cur : Option (List Entry)) (xs : List Entry) : Option (List Entry) :=
  match cur with
  | some l => some (l ++ xs)
  | none => if xs.isEmpty then none else some xs

theorem lookup_map_update (acc : List (String × List Entry)) (name n : String) (e : Entry) :
    List.lookup n (acc.map (fun p => if p.1 == name then (p.1, p.2 ++ [e]) else p))
      = if n = name then (List.lookup n acc).map (fun l => l ++ [e])
        else List.lookup n acc := by
  induction acc with
  | nil => by_cases h : n = name <;> simp [h]
  | cons p rest ih =>
    obtain ⟨k, v⟩ := p
    by_cases hn : n = k
    · subst hn
      by_cases hk : n = name
      · subst hk
        simp [List.lookup_cons]
      · have hb : (n == name) = false := by simpa using hk
        simp [List.lookup_cons, hb, hk]
    · have hb : (n == k) = false := by simpa using hn
      by_cases hk : k = name
      · subst hk
        simp only [List.map_cons, if_pos (beq_self_eq_true k), List.lookup_cons, hb]
        simpa using ih
      · have hb2 : (k == name) = false := by simpa using hk
        simp only [List.map_cons, hb2, Bool.false_eq_true, if_false, List.lookup_cons, hb]
        simpa using ih

theorem lookup_append_single (acc : List (String × List Entry)) (name n : String)
    (xs : List Entry) :
    List.lookup n (acc ++ [(name, xs)])
      = match List.lookup n acc with
        | some l => some l
        | none => if n = name then some xs else none := by
  rw [List.lookup_append]
  have hsingle : List.lookup n [(name, xs)] = if n = name then some xs else none := by
    by_cases h : n = name
    · subst h
      simp
    · have hb : (n == name) = false := by simpa using h
      simp [List.lookup_cons, hb, h]
  rw [hsingle]
  cases List.lookup n acc <;> simp

theorem lookup_of_any_eq_false (acc : List (String × List Entry)) (name : String)
    (h : acc.any (fun p => p.1 == name) = false) :
    List.lookup name acc = none := by
  have h2 : ∀ p ∈ acc, ¬ p.1 = name := by simpa using h
  rw [List.lookup_eq_none_iff]
  intro p hp
  simpa using fun hc => h2 p hp hc.symm

theorem lookup_pushEntry (acc : List (String × List Entry)) (name n : String) (e : Entry) :
    List.lookup n (pushEntry acc name e)
      = if n = name then combineBucket (List.lookup n acc) [e]
        else List.lookup n acc := by
  unfold pushEntry
  by_cases ha : acc.any (fun p => p.1 == name) = true
  · rw [if_pos ha, lookup_map_update]
    by_cases hn : n = name
    · subst hn
      simp only [if_pos rfl, combineBucket]
      cases hcur : List.lookup n acc with
      | some l => simp
      | none =>
        exfalso
        have h1 : ∃ p ∈ acc, p.1 = n := by simpa using ha
        have h2 : ∀ p ∈ acc, ¬ n = p.1 := by
          simpa using List.lookup_eq_none_iff.mp hcur
        obtain ⟨p, hp, hpe⟩ := h1
        exact h2 p hp hpe.symm
    · simp [hn]
  · rw [if_neg ha, lookup_append_single]
    by_cases hn : n = name
    · subst hn
      rw [lookup_of_any_eq_false acc n (Bool.eq_false_iff.mpr ha)]
      simp [combineBucket]
    · cases h : List.lookup n acc <;> simp [hn]

theorem lookup_groupFold (db : DB) (hs : List Headline)
    (acc : List (String × List Entry)) (n : String) :
    List.lookup n (hs.foldl (fun a h => pushEntry a (sourceName db h) (entryOf db h)) acc)
      = combineBucket (List.lookup n acc)
          ((hs.filter (fun h => sourceName db h == n)).map (entryOf db)) := by
  induction hs generalizing acc with
  | nil => cases h : List.lookup n acc <;> simp [combineBucket, h]
  | cons h rest ih =>
    rw [List.foldl_cons, ih, lookup_pushEntry]
    by_cases hn : n = sourceName db h
    · rw [if_pos hn]
      have hbt : (sourceName db h == n) = true := by simpa using hn.symm
      have hfil : (h :: rest).filter (fun h2 => sourceName db h2 == n)
          = h :: rest.filter (fun h2 => sourceName db h2 == n) := by
        simp [List.filter_cons, hbt]
      rw [hfil]
      cases hcur : List.lookup n acc <;> simp [combineBucket]
    · rw [if_neg hn]
      have hbf : (sourceName db h == n) = false := by
        simpa using fun hc => hn ((hc : sourceName db h = n)).symm
      have hfil : (h :: rest).filter (fun h2 => sourceName db h2 == n)
          = rest.filter (fun h2 => sourceName db h2 == n) := by
        simp [List.filter_cons, hbf]
      rw [hfil]

theorem fstLst_foldl (obs : List Obs) (s : Nat) (t : String) :
    ∀ db : DB,
      fstLst (obs.foldl recordObservation db) s t
        = (obs.filter (fun o => obsKey o == (s, t))).foldl
            (fun acc o => updKey acc o.observedAt) (fstLst db s t) := by
  induction obs with
  | nil => intro db; rfl
  | cons o rest ih =>
    intro db
    rw [List.foldl_cons, ih, fstLst_recordObservation, List.filter_cons]
    by_cases hk : (obsKey o == (s, t)) = true
    · rw [if_pos hk, if_pos hk, List.foldl_cons]
    · rw [if_neg hk, if_neg hk]

theorem foldl_updKey_some (ts : List Nat) :
    ∀ f l : Nat, ts.foldl (fun acc x => updKey acc x) (some (f, l))
      = some (f, ts.foldl max l) := by
  induction ts with
  | nil => intro f l; rfl
  | cons a rest ih =>
    intro f l
    rw [List.foldl_cons, List.foldl_cons]
    exact ih f (max l a)

theorem foldl_updKey_none (ts : List Nat) :
    ts.foldl (fun acc x => updKey acc x) none
      = match ts with
        | [] => none
        | a :: rest => some (a, rest.foldl max a) := by
  cases ts with
  | nil => rfl
  | cons a rest =>
    rw [List.foldl_cons]
    exact foldl_updKey_some rest a a

theorem keys_map_updHeadline (db : DB) (o : Obs) :
    (db.headlines.map (updHeadline o)).map headlineKey = db.headlines.map headlineKey := by
  rw [List.map_map]
  apply List.map_congr_left
  intro h2 _
  show headlineKey (updHeadline o h2) = headlineKey h2
  rw [headlineKey_updHeadline]

theorem ids_map_updHeadline (db : DB) (o : Obs) :
    (db.headlines.map (updHeadline o)).map (fun h => h.id)
      = db.headlines.map (fun h => h.id) := by
  rw [List.map_map]
  apply List.map_congr_left
  intro h2 _
  show (updHeadline o h2).id = h2.id
  rw [id_updHeadline]

theorem recordObservation_keys_nodup (db : DB) (o : Obs)
    (hnd : (db.headlines.map headlineKey).Nodup) :
    (((recordObservation db o).headlines).map headlineKey).Nodup := by
  unfold recordObservation
  cases hf : db.headlines.find? (fun h => headlineKey h == obsKey o) with
  | some h =>
    show ((db.headlines.map (updHeadline o)).map headlineKey).Nodup
    rw [keys_map_updHeadline]
    exact hnd
  | none =>
    show ((db.headlines ++ [newHeadline db o]).map headlineKey).Nodup
    rw [List.map_append]
    have hnotin : obsKey o ∉ db.headlines.map headlineKey := by
      intro hmem
      obtain ⟨h2, hh2, hh2e⟩ := List.mem_map.mp hmem
      have := List.find?_eq_none.mp hf h2 hh2
      simp [hh2e] at this
    refine List.Nodup.append hnd (List.nodup_singleton _) ?_
    intro a hmem hmem2
    have ha : a = obsKey o := by
      simpa [headlineKey_newHeadline] using hmem2
    rw [ha] at hmem
    exact hnotin hmem

theorem runObs_keys_nodup (obs : List Obs) :
    (((runObs obs).headlines).map headlineKey).Nodup := by
  unfold runObs
  suffices H : ∀ (l : List Obs) (db : DB), (db.headlines.map headlineKey).Nodup →
      (((l.foldl recordObservation db).headlines).map headlineKey).Nodup by
    exact H obs emptyDB (by simp [emptyDB])
  intro l
  induction l with
  | nil => intro db h; exact h
  | cons o rest ih =>
    intro db h
    rw [List.foldl_cons]
    exact ih _ (recordObservation_keys_nodup db o h)

theorem countP_key_le_one (l : List Headline) (k : Nat × String)
    (hnd : (l.map headlineKey).Nodup) :
    l.countP (fun h => headlineKey h == k) ≤ 1 := by
  induction l with
  | nil => simp
  | cons h rest ih =>
    simp only [List.map_cons, List.nodup_cons] at hnd
    rw [List.countP_cons]
    by_cases hc : (headlineKey h == k) = true
    · have hk : headlineKey h = k := by simpa using hc
      have hzero : rest.countP (fun h2 => headlineKey h2 == k) = 0 := by
        rw [List.countP_eq_zero]
        intro h2 hh2 hc2
        have he : headlineKey h2 = k := by simpa using hc2
        apply hnd.1
        rw [hk, ← he]
        exact List.mem_map_of_mem headlineKey hh2
      rw [hzero]
      simp [hc]
    · have hle := ih hnd.2
      have hcf : (headlineKey h == k) = false := by simpa using hc
      rw [hcf]
      simpa using hle

theorem sumLens_append (a b : List (String × List Entry)) :
    sumLens (a ++ b) = sumLens a + sumLens b := by
  simp [sumLens]

theorem keys_map_update (acc : List (String × List Entry)) (name : String) (e : Entry) :
    (acc.map (fun p => if p.1 == name then (p.1, p.2 ++ [e]) else p)).map Prod.fst
      = acc.map Prod.fst := by
  rw [List.map_map]
  apply List.map_congr_left
  intro p hp
  by_cases h : p.1 = name <;> simp [h]

theorem sumLens_mapUpdate (acc : List (String × List Entry)) (name : String) (e : Entry)
    (hnd : (acc.map Prod.fst).Nodup) (ha : acc.any (fun p => p.1 == name) = true) :
    sumLens (acc.map (fun p => if p.1 == name then (p.1, p.2 ++ [e]) else p))
      = sumLens acc + 1 := by
  induction acc with
  | nil => cases ha
  | cons p rest ih =>
    obtain ⟨k, v⟩ := p
    simp only [List.map_cons, List.nodup_cons] at hnd
    by_cases hk : k = name
    · subst hk
      have hrest : rest.map (fun p => if p.1 == k then (p.1, p.2 ++ [e]) else p)
          = rest.map id := by
        apply List.map_congr_left
        intro q hq
        have hne : (q.1 == k) = false := by
          have hmm : q.1 ∈ rest.map Prod.fst := List.mem_map_of_mem Prod.fst hq
          by_contra hcon
          rw [Bool.not_eq_false, beq_iff_eq] at hcon
          rw [hcon] at hmm
          exact hnd.1 hmm
        simp [hne]
      rw [List.map_id] at hrest
      simp only [List.map_cons, if_pos (beq_self_eq_true k), hrest]
      simp [sumLens]
      omega
    · have hb : (k == name) = false := by simpa using hk
      have ha2 : rest.any (fun p => p.1 == name) = true := by
        simpa [hb] using ha
      simp only [List.map_cons, hb, Bool.false_eq_true, if_false]
      have := ih hnd.2 ha2
      simp only [sumLens, List.map_cons, List.sum_cons] at this ⊢
      omega

theorem sumLens_pushEntry (acc : List (String × List Entry)) (name : String) (e : Entry)
    (hnd : (acc.map Prod.fst).Nodup) :
    sumLens (pushEntry acc name e) = sumLens acc + 1 := by
  unfold pushEntry
  by_cases ha : acc.any (fun p => p.1 == name) = true
  · rw [if_pos ha, sumLens_mapUpdate acc name e hnd ha]
  · rw [if_neg ha, sumLens_append]
    simp [sumLens]

theorem keys_pushEntry_nodup (acc : List (String × List Entry)) (name : String) (e : Entry)
    (hnd : (acc.map Prod.fst).Nodup) :
    ((pushEntry acc name e).map Prod.fst).Nodup := by
  unfold pushEntry
  by_cases ha : acc.any (fun p => p.1 == name) = true
  · rw [if_pos ha, keys_map_update]
    exact hnd
  · rw [if_neg ha, List.map_append]
    have hnotin : name ∉ acc.map Prod.fst := by
      intro hmem
      obtain ⟨q, hq, hqe⟩ := List.mem_map.mp hmem
      exact ha (List.any_eq_true.mpr ⟨q, hq, by simpa using hqe⟩)
    refine List.Nodup.append hnd (List.nodup_singleton name) ?_
    intro a hmem hmem2
    have : a = name := by simpa using hmem2
    rw [this] at hmem
    exact hnotin hmem

theorem buildFold_nodup_sum (db : DB) (hs : List Headline) :
    ∀ acc : List (String × List Entry), (acc.map Prod.fst).Nodup →
      (((hs.foldl (fun a h => pushEntry a (sourceName db h) (entryOf db h)) acc).map
          Prod.fst).Nodup
        ∧ sumLens (hs.foldl (fun a h => pushEntry a (sourceName db h) (entryOf db h)) acc)
            = sumLens acc + hs.length) := by
  induction hs with
  | nil => intro acc h; exact ⟨h, by simp⟩
  | cons h rest ih =>
    intro acc hacc
    have hnd2 := keys_pushEntry_nodup acc (sourceName db h) (entryOf db h) hacc
    obtain ⟨hA, hB⟩ := ih _ hnd2
    refine ⟨hA, ?_⟩
    rw [List.foldl_cons]
    rw [hB, sumLens_pushEntry acc _ _ hacc]
    simp only [List.length_cons]
    omega

theorem pushEntry_entries (acc : List (String × List Entry)) (name : String) (e : Entry)
    (pred : Entry → Prop)
    (hacc : ∀ p ∈ acc, ∀ x ∈ p.2, pred x) (he : pred e) :
    ∀ p ∈ pushEntry acc name e, ∀ x ∈ p.2, pred x := by
  unfold pushEntry
  by_cases ha : acc.any (fun p => p.1 == name) = true
  · rw [if_pos ha]
    intro p hp x hx
    obtain ⟨q, hq, rfl⟩ := List.mem_map.mp hp
    by_cases hqk : (q.1 == name) = true
    · rw [if_pos hqk] at hx
      rcases List.mem_append.mp hx with hx1 | hx1
      · exact hacc q hq x hx1
      · rwa [List.mem_singleton.mp hx1]
    · rw [if_neg hqk] at hx
      exact hacc q hq x hx
  · rw [if_neg ha]
    intro p hp x hx
    rcases List.mem_append.mp hp with hp1 | hp1
    · exact hacc p hp1 x hx
    · rw [List.mem_singleton.mp hp1] at hx
      rwa [List.mem_singleton.mp hx]

theorem buildBySource_entries (db : DB) (hs : List Headline) (pred : Entry → Prop)
    (hall : ∀ h ∈ hs, pred (entryOf db h)) :
    ∀ p ∈ buildBySource db hs, ∀ x ∈ p.2, pred x := by
  unfold buildBySource
  suffices H : ∀ (l : List Headline) (acc : List (String × List Entry)),
      (∀ h ∈ l, pred (entryOf db h)) →
      (∀ p ∈ acc, ∀ x ∈ p.2, pred x) →
      ∀ p ∈ l.foldl (fun a h => pushEntry a (sourceName db h) (entryOf db h)) acc,
        ∀ x ∈ p.2, pred x by
    exact H hs [] hall (by intro p hp; cases hp)
  intro l
  induction l with
  | nil => intro acc _ hacc; exact hacc
  | cons h rest ih =>
    intro acc hl hacc
    rw [List.foldl_cons]
    exact ih _ (fun h2 hh2 => hl h2 (List.mem_cons_of_mem h hh2))
      (pushEntry_entries acc _ _ pred hacc (hl h (List.mem_cons_self h rest)))

theorem entryOf_ranks_length_le (db : DB) (h : Headline) :
    (entryOf db h).ranks.length ≤ 5 := by
  simp only [entryOf, List.length_map]
  exact List.length_take_le 5 _

/-- The structural invariant the dedup store maintains: every headline id
is below the id counter, keys and ids are duplicate-free, and every
occurrence refers to a stored headline. -/
def DBInv (db : DB) : Prop :=
  (∀ h ∈ db.headlines, h.id < db.nextHeadlineId)
  ∧ (db.headlines.map headlineKey).Nodup
  ∧ (db.headlines.map (fun h => h.id)).Nodup
  ∧ (∀ oc ∈ db.occurrences, ∃ h ∈ db.headlines, oc.headlineId = h.id)

theorem emptyDB_inv : DBInv emptyDB := by
  refine ⟨?_, ?_, ?_, ?_⟩ <;> simp [emptyDB]

theorem recordObservation_occurrences (db : DB) (o : Obs) :
    (recordObservation db o).occurrences = db.occurrences ++ [newOccurrence db o] := by
  unfold recordObservation newOccurrence
  cases db.headlines.find? (fun h => headlineKey h == obsKey o) <;> rfl

theorem recordObservation_inv (db : DB) (o : Obs) (hinv : DBInv db) :
    DBInv (recordObservation db o) := by
  obtain ⟨hlt, hkeys, hids, hocc⟩ := hinv
  refine ⟨?_, recordObservation_keys_nodup db o hkeys, ?_, ?_⟩
  · unfold recordObservation
    cases hf : db.headlines.find? (fun h => headlineKey h == obsKey o) with
    | some h =>
      intro h2 hh2
      obtain ⟨h3, hh3, rfl⟩ := List.mem_map.mp hh2
      rw [id_updHeadline]
      exact hlt h3 hh3
    | none =>
      intro h2 hh2
      rcases List.mem_append.mp hh2 with hh3 | hh3
      · exact Nat.lt_succ_of_lt (hlt h2 hh3)
      · rw [List.mem_singleton.mp hh3]
        exact Nat.lt_succ_self _
  · unfold recordObservation
    cases hf : db.headlines.find? (fun h => headlineKey h == obsKey o) with
    | some h =>
      show ((db.headlines.map (updHeadline o)).map (fun h2 => h2.id)).Nodup
      rw [ids_map_updHeadline]
      exact hids
    | none =>
      show ((db.headlines ++ [newHeadline db o]).map (fun h2 => h2.id)).Nodup
      rw [List.map_append]
      refine List.Nodup.append hids (List.nodup_singleton _) ?_
      intro a hmem hmem2
      obtain ⟨h3, hh3, hh3e⟩ := List.mem_map.mp hmem
      have ha : a = db.nextHeadlineId := by simpa [newHeadline] using hmem2
      rw [ha] at hh3e
      exact absurd hh3e (Nat.ne_of_lt (hlt h3 hh3))
  · unfold recordObservation
    cases hf : db.headlines.find? (fun h => headlineKey h == obsKey o) with
    | some h =>
      intro oc hoc
      rcases List.mem_append.mp hoc with hoc1 | hoc1
      · obtain ⟨h3, hh3, hh3e⟩ := hocc oc hoc1
        refine ⟨updHeadline o h3, List.mem_map_of_mem (updHeadline o) hh3, ?_⟩
        rw [id_updHeadline]
        exact hh3e
      · rw [List.mem_singleton.mp hoc1]
        refine ⟨updHeadline o h, List.mem_map_of_mem (updHeadline o)
          (List.mem_of_find?_eq_some hf), ?_⟩
        rw [id_updHeadline]
    | none =>
      intro oc hoc
      rcases List.mem_append.mp hoc with hoc1 | hoc1
      · obtain ⟨h3, hh3, hh3e⟩ := hocc oc hoc1
        exact ⟨h3, List.mem_append_left _ hh3, hh3e⟩
      · rw [List.mem_singleton.mp hoc1]
        exact ⟨newHeadline db o, List.mem_append_right _ (List.mem_singleton_self _), rfl⟩

theorem recordObservation_eq_some (db : DB) (o : Obs) (h : Headline)
    (hf : db.headlines.find? (fun h2 => headlineKey h2 == obsKey o) = some h) :
    recordObservation db o
      = { db with
          headlines := db.headlines.map (updHeadline o),
          occurrences := db.occurrences
            ++ [Occurrence.mk db.nextOccurrenceId h.id o.rank o.observedAt],
          nextOccurrenceId := db.nextOccurrenceId + 1 } := by
  unfold recordObservation
  rw [hf]

theorem recordObservation_eq_none (db : DB) (o : Obs)
    (hf : db.headlines.find? (fun h2 => headlineKey h2 == obsKey o) = none) :
    recordObservation db o
      = { db with
          headlines := db.headlines ++ [newHeadline db o],
          occurrences := db.occurrences
            ++ [Occurrence.mk db.nextOccurrenceId db.nextHeadlineId o.rank o.observedAt],
          nextHeadlineId := db.nextHeadlineId + 1,
          nextOccurrenceId := db.nextOccurrenceId + 1 } := by
  unfold recordObservation
  rw [hf]

theorem occCountFor_recordObservation (db : DB) (o : Obs) (s : Nat) (t : String)
    (hinv : DBInv db) :
    occCountFor (recordObservation db o) s t
      = occCountFor db s t + (if obsKey o == (s, t) then 1 else 0) := by
  obtain ⟨hlt, hkeys, hids, hocc⟩ := hinv
  cases hf : db.headlines.find? (fun h => headlineKey h == obsKey o) with
  | some h =>
    have hmemh : h ∈ db.headlines := List.mem_of_find?_eq_some hf
    have hkeyh : headlineKey h = obsKey o := by simpa using List.find?_some hf
    rw [recordObservation_eq_some db o h hf]
    simp only [occCountFor]
    rw [List.find?_map, key_pred_comp_upd]
    by_cases hk : obsKey o = (s, t)
    · have hb : (obsKey o == (s, t)) = true := by simpa using hk
      have hfp : db.headlines.find? (fun h2 => headlineKey h2 == (s, t)) = some h := by
        rw [← hk]
        exact hf
      rw [hfp]
      simp only [Option.map]
      rw [id_updHeadline, List.countP_append]
      simp [hb]
    · have hb : (obsKey o == (s, t)) = false := by simpa using hk
      cases hfind : db.headlines.find? (fun h2 => headlineKey h2 == (s, t)) with
      | none => simp [hb]
      | some h2 =>
        have hmem2 : h2 ∈ db.headlines := List.mem_of_find?_eq_some hfind
        have hkey2 : headlineKey h2 = (s, t) := by simpa using List.find?_some hfind
        have hneq : h ≠ h2 := by
          intro hcon
          apply hk
          rw [← hkeyh, hcon, hkey2]
        have hidneq : h.id ≠ h2.id := by
          intro hcon
          exact hneq (List.inj_on_of_nodup_map hids hmemh hmem2 hcon)
        simp only [Option.map]
        rw [id_updHeadline, List.countP_append]
        simp [hb, hidneq]
  | none =>
    rw [recordObservation_eq_none db o hf]
    simp only [occCountFor]
    rw [List.find?_append]
    by_cases hk : obsKey o = (s, t)
    · have hb : (obsKey o == (s, t)) = true := by simpa using hk
      have hfp : db.headlines.find? (fun h2 => headlineKey h2 == (s, t)) = none := by
        rw [← hk]
        exact hf
      have hnew : (headlineKey (newHeadline db o) == (s, t)) = true := by
        rw [headlineKey_newHeadline]
        exact hb
      have hfind_new : List.find? (fun h2 => headlineKey h2 == (s, t)) [newHeadline db o]
          = some (newHeadline db o) := by
        simp [List.find?_cons, hnew]
      rw [hfp, hfind_new]
      simp only [Option.or]
      rw [List.countP_append]
      simp [hb, newHeadline]
      intro oc hoc
      obtain ⟨h3, hh3, hh3e⟩ := hocc oc hoc
      rw [hh3e]
      exact Nat.ne_of_lt (hlt h3 hh3)
    · have hb : (obsKey o == (s, t)) = false := by simpa using hk
      have hnew : (headlineKey (newHeadline db o) == (s, t)) = false := by
        rw [headlineKey_newHeadline]
        exact hb
      have hfind_new : List.find? (fun h2 => headlineKey h2 == (s, t)) [newHeadline db o]
          = none := by
        simp [List.find?_cons, hnew]
      rw [hfind_new]
      cases hfind : db.headlines.find? (fun h2 => headlineKey h2 == (s, t)) with
      | none => simp [hb]
      | some h2 =>
        have hmem2 : h2 ∈ db.headlines := List.mem_of_find?_eq_some hfind
        have hidneq : db.nextHeadlineId ≠ h2.id :=
          fun hc => Nat.ne_of_lt (hlt h2 hmem2) hc.symm
        simp only [Option.or]
        rw [List.countP_append]
        simp [hb, hidneq]

theorem occCountFor_foldl (obs : List Obs) (s : Nat) (t : String) :
    ∀ db : DB, DBInv db →
      occCountFor (obs.foldl recordObservation db) s t
        = occCountFor db s t + obs.countP (fun o => obsKey o == (s, t)) := by
  induction obs with
  | nil => intro db _; simp
  | cons o rest ih =>
    intro db hinv
    rw [List.foldl_cons, ih _ (recordObservation_inv db o hinv),
      occCountFor_recordObservation db o s t hinv, List.countP_cons]
    by_cases hk : (obsKey o == (s, t)) = true
    · simp [hk]
      omega
    · simp [hk]

/-- C1: after any sequence of recorded observations there is at most one
headline row per (source, title) key; that row's `first_seen_at` is the
timestamp of the first observation of the key and its `last_seen_at` is
the maximum observed timestamp; and one `recordObservation` leaves the
number of rows unchanged when the key already exists, adding a row only
for a fresh key. -/
theorem headline_unique_first_last (obs : List Obs) (s : Nat) (t : String)
    (db : DB) (o : Obs) :
    (runObs obs).headlines.countP (fun h => headlineKey h == (s, t)) ≤ 1
    ∧ fstLst (runObs obs) s t = firstLastSpec obs s t
    ∧ (recordObservation db o).headlines.length
        = (if db.headlines.any (fun h => headlineKey h == obsKey o) then
            db.headlines.length else db.headlines.length + 1) := by
  refine ⟨countP_key_le_one _ _ (runObs_keys_nodup obs), ?_, ?_⟩
  · have hrun : fstLst (runObs obs) s t
        = (obs.filter (fun o2 => obsKey o2 == (s, t))).foldl
            (fun acc o2 => updKey acc o2.observedAt) none := fstLst_foldl obs s t emptyDB
    rw [hrun, ← List.foldl_map (fun o2 : Obs => o2.observedAt) (fun acc x => updKey acc x),
      foldl_updKey_none]
    rfl
  · unfold recordObservation
    cases hf : db.headlines.find? (fun h => headlineKey h == obsKey o) with
    | some h =>
      have hmem : h ∈ db.headlines := List.mem_of_find?_eq_some hf
      have hp : (headlineKey h == obsKey o) = true := by
        simpa using List.find?_some hf
      have hany : db.headlines.any (fun h2 => headlineKey h2 == obsKey o) = true :=
        List.any_eq_true.mpr ⟨h, hmem, hp⟩
      rw [if_pos hany]
      simp
    | none =>
      have hany : db.headlines.any (fun h2 => headlineKey h2 == obsKey o) = false := by
        rw [List.any_eq_false]
        intro x hx
        simpa using List.find?_eq_none.mp hf x hx
      rw [if_neg (by simp [hany])]
      simp

/-- C6: occurrences are append-only and immutable: one
`recordObservation` extends the occurrence list by exactly one new
complete record and touches no existing one; after any sequence of
observations the occurrence count of a key's headline equals the number
of observations recorded for that key (recording the same observation
twice appends two occurrences); and the only deleting operation is the
cascade of a headline deletion, which removes exactly that headline's
occurrences. -/
theorem occurrences_append_only (obs : List Obs) (s : Nat) (t : String)
    (db : DB) (o : Obs) (hid : Nat) :
    occCountFor (runObs obs) s t = obs.countP (fun o2 => obsKey o2 == (s, t))
    ∧ (recordObservation db o).occurrences = db.occurrences ++ [newOccurrence db o]
    ∧ (deleteHeadline db hid).occurrences
        = db.occurrences.filter (fun oc => !(oc.headlineId == hid))
    ∧ (deleteHeadline db hid).headlines
        = db.headlines.filter (fun h => !(h.id == hid)) := by
  refine ⟨?_, recordObservation_occurrences db o, rfl, rfl⟩
  have h := occCountFor_foldl obs s t emptyDB emptyDB_inv
  simpa [occCountFor, emptyDB] using h

/-- C4: for every title and word group, a filter-kind word occurring in
the title (case-insensitively) makes the group not match, regardless of
required or normal words. -/
theorem filter_word_excludes (title : List Char) (g : WordGroup)
    (hf : g.filterWords.any (fun w => containsWord title w) = true) :
    matchesGroup title g = false := by
  unfold matchesGroup
  rw [hf]
  simp

/-- Witness for C4, on the spec's own example: the group with required
word 特朗普 and filter word 广告 does not match the title 特朗普广告新闻
even though the required word occurs. -/
theorem filter_word_excludes_witness :
    ((WordGroup.mk ["特朗普".toList] [] ["广告".toList]).filterWords.any
      (fun w => containsWord "特朗普广告新闻".toList w) = true)
    ∧ matchesGroup "特朗普广告新闻".toList
        (WordGroup.mk ["特朗普".toList] [] ["广告".toList]) = false :=
  ⟨by decide, filter_word_excludes "特朗普广告新闻".toList
    (WordGroup.mk ["特朗普".toList] [] ["广告".toList]) (by decide)⟩

/-- C5: with a last-push timestamp `T`, incremental selection keeps
exactly the headlines with `first_seen_at > T` (strictly): one first seen
at `T` is excluded, one first seen at `T + 1` is included; without a
last-push timestamp, incremental selection is daily selection. -/
theorem incremental_strictly_new (db : DB) (asOf T : Nat) (h : Headline) :
    (h ∈ selectIncremental db asOf (some T) ↔ h ∈ db.headlines ∧ T < h.firstSeenAt)
    ∧ (h.firstSeenAt = T → h ∉ selectIncremental db asOf (some T))
    ∧ (h ∈ db.headlines → h.firstSeenAt = T + 1 → h ∈ selectIncremental db asOf (some T))
    ∧ selectIncremental db asOf none = selectDaily db asOf := by
  refine ⟨?_, ?_, ?_, rfl⟩
  · simp [selectIncremental, List.mem_filter]
  · intro heq hmem
    have := (List.mem_filter.mp hmem).2
    simp [heq] at this
  · intro hmem heq
    exact List.mem_filter.mpr ⟨hmem, by simp [heq]⟩

/-- Witness for C5: in a store holding one headline first seen at 5 and
one first seen at 4, incremental selection since 4 contains the former
and not the latter. -/
theorem incremental_strictly_new_witness :
    (Headline.mk 1 0 "a" none none 5 5 ∈ selectIncremental
      (DB.mk [] [Headline.mk 1 0 "a" none none 5 5, Headline.mk 2 0 "b" none none 4 4] [] 3 0)
      0 (some 4))
    ∧ (Headline.mk 2 0 "b" none none 4 4 ∉ selectIncremental
      (DB.mk [] [Headline.mk 1 0 "a" none none 5 5, Headline.mk 2 0 "b" none none 4 4] [] 3 0)
      0 (some 4)) :=
  ⟨(incremental_strictly_new
      (DB.mk [] [Headline.mk 1 0 "a" none none 5 5, Headline.mk 2 0 "b" none none 4 4] [] 3 0)
      0 4 (Headline.mk 1 0 "a" none none 5 5)).2.2.1 (by decide) (by decide),
   (incremental_strictly_new
      (DB.mk [] [Headline.mk 1 0 "a" none none 5 5, Headline.mk 2 0 "b" none none 4 4] [] 3 0)
      0 4 (Headline.mk 2 0 "b" none none 4 4)).2.1 (by decide)⟩

/-- C7: an occurrence write missing its rank or its timestamp is rejected
whole (the store is unchanged, nothing partial is persisted); a write
that is accepted persists exactly one complete record carrying both the
rank and the timestamp. -/
theorem occurrence_write_all_or_nothing (db : DB) (oid : Nat) (r : RawOccurrence) :
    ((r.rank = none ∨ r.crawledAt = none) → insertOccurrence db oid r = none)
    ∧ (∀ db2, insertOccurrence db oid r = some db2 →
        ∃ rk t, r.rank = some rk ∧ r.crawledAt = some t ∧
          db2.occurrences = db.occurrences ++ [Occurrence.mk oid r.headlineId rk t] ∧
          db2.headlines = db.headlines) := by
  obtain ⟨hid, rk, t⟩ := r
  constructor
  · rintro (hr | ht)
    · cases rk with
      | none => cases t <;> rfl
      | some v => cases hr
    · cases ht
      cases rk <;> rfl
  · intro db2 heq
    cases rk with
    | none => cases t <;> cases heq
    | some v =>
      cases t with
      | none => cases heq
      | some u =>
        refine ⟨v, u, rfl, rfl, ?_, ?_⟩
        · have := congrArg (fun x => (x.getD db).occurrences) heq
          simpa [insertOccurrence] using this.symm
        · have := congrArg (fun x => (x.getD db).headlines) heq
          simpa [insertOccurrence] using this.symm

/-- Witness for C7: a write with a missing rank leaves the empty store
untouched. -/
theorem occurrence_write_all_or_nothing_witness :
    insertOccurrence emptyDB 0 (RawOccurrence.mk 7 none (some 3)) = none :=
  (occurrence_write_all_or_nothing emptyDB 0 (RawOccurrence.mk 7 none (some 3))).1
    (Or.inl rfl)

/-- Helper: one session operation preserves the invariant relating a null
completion time to the running status. -/
theorem sessionOp_preserves_inv (s : Session) (op : SessionOp)
    (h : s.completedAt = none ↔ s.status = .running) :
    ((applySessionOp s op).completedAt = none ↔ (applySessionOp s op).status = .running) := by
  obtain ⟨t0, ca, ss, sf, hc, st⟩ := s
  cases op with
  | record sid oc =>
    cases st <;> cases oc <;> simpa [applySessionOp, recordSourceResult] using h
  | finalize e =>
    cases st with
    | running =>
      by_cases he : ss.isEmpty <;> simp [applySessionOp, finalizeSession, he]
    | completed => simpa [applySessionOp, finalizeSession] using h
    | failed => simpa [applySessionOp, finalizeSession] using h

/-- Helper: the invariant holds for every session reachable from
`beginSession` by a sequence of operations. -/
theorem runSession_inv (startedAt : Nat) (ops : List SessionOp) :
    ((runSession startedAt ops).completedAt = none
      ↔ (runSession startedAt ops).status = .running) := by
  suffices H : ∀ (l : List SessionOp) (s : Session),
      (s.completedAt = none ↔ s.status = .running) →
      ((l.foldl applySessionOp s).completedAt = none
        ↔ (l.foldl applySessionOp s).status = .running) by
    exact H ops (beginSession startedAt) (by simp [beginSession])
  intro l
  induction l with
  | nil => intro s h; exact h
  | cons op rest ih => intro s h; exact ih _ (sessionOp_preserves_inv s op h)

/-- C8: a session starts `running` with a null completion time; recording
source results never changes status or completion time; finalizing a
running session moves it to one of the terminal statuses `completed` and
`failed` and sets `completed_at` exactly then; no operation moves a
session out of a terminal status; over every reachable session the
completion time is null exactly while the session is running. -/
theorem crawl_session_state_machine :
    (∀ t, (beginSession t).status = .running ∧ (beginSession t).completedAt = none)
    ∧ (∀ s op, (s.status = .completed ∨ s.status = .failed) → applySessionOp s op = s)
    ∧ (∀ s e, s.status = .running →
        ((finalizeSession s e).status = .completed ∨ (finalizeSession s e).status = .failed)
        ∧ (finalizeSession s e).completedAt = some e)
    ∧ (∀ s sid oc, (recordSourceResult s sid oc).status = s.status)
    ∧ (∀ t ops, ((runSession t ops).completedAt = none
        ↔ (runSession t ops).status = .running)) := by
  refine ⟨fun t => ⟨rfl, rfl⟩, ?_, ?_, ?_, fun t ops => runSession_inv t ops⟩
  · rintro ⟨t0, ca, ss, sf, hc, st⟩ op (hs | hs) <;>
      cases st <;> simp at hs <;> cases op with
      | record sid oc => cases oc <;> rfl
      | finalize e => rfl
  · rintro ⟨t0, ca, ss, sf, hc, st⟩ e hs
    cases st with
    | running => by_cases he : ss.isEmpty <;> simp [finalizeSession, he]
    | completed => exact absurd hs (by simp)
    | failed => exact absurd hs (by simp)
  · rintro ⟨t0, ca, ss, sf, hc, st⟩ sid oc
    cases st <;> cases oc <;> rfl

/-- Witness for C8: finalizing a fresh session (no successful source)
marks it terminal and stamps the completion time. -/
theorem crawl_session_state_machine_witness :
    ((finalizeSession (beginSession 0) 7).status = .completed
      ∨ (finalizeSession (beginSession 0) 7).status = .failed)
    ∧ (finalizeSession (beginSession 0) 7).completedAt = some 7 :=
  crawl_session_state_machine.2.2.1 (beginSession 0) 7 rfl

/-- C2: the daily selection (`getTodayHeadlines`) contains a headline
exactly when its `firstSeenAt` is at or after midnight of the query
time's calendar day, independent of any push history; `startOfDay` is
that midnight (at most a day before the query time, a multiple of a
day). -/
theorem daily_selects_from_startOfDay (db : DB) (now : Nat) (h : Headline) :
    (h ∈ getTodayHeadlines db now ↔ h ∈ db.headlines ∧ startOfDay now ≤ h.firstSeenAt)
    ∧ startOfDay now ≤ now
    ∧ now - startOfDay now < msPerDay
    ∧ startOfDay now % msPerDay = 0
    ∧ getTodayHeadlines db now = sortByLastSeenDesc (selectDaily db now) := by
  refine ⟨?_, ?_, ?_, ?_, rfl⟩
  · simp [getTodayHeadlines, sortByLastSeenDesc, List.mem_insertionSort, List.mem_filter]
  · unfold startOfDay msPerDay
    omega
  · unfold startOfDay msPerDay
    omega
  · unfold startOfDay msPerDay
    omega

/-- C9: when no stored headline falls in the route's selection window the
request is not an error: the route answers success with count zero and an
empty source mapping. -/
theorem empty_window_success (db : DB) (now : Nat)
    (hempty : ∀ h ∈ db.headlines, h.firstSeenAt < now - msPerDay) :
    GET db now = ApiResponse.mk true 0 [] := by
  have hfil : db.headlines.filter (fun h => decide (now - msPerDay ≤ h.firstSeenAt)) = [] := by
    rw [List.filter_eq_nil_iff]
    intro h hh
    simpa using Nat.not_le.mpr (hempty h hh)
  have hsel : selectedHeadlines db now = [] := by
    unfold selectedHeadlines sortByLastSeenDesc
    rw [hfil]
    rfl
  simp [GET, hsel, buildBySource]

/-- Witness for C9: a store holding one stale headline (outside the
24-hour window) yields the empty success payload. -/
theorem empty_window_success_witness :
    GET (DB.mk [] [Headline.mk 1 0 "old" none none 0 0] [] 2 0) (3 * msPerDay)
      = ApiResponse.mk true 0 [] :=
  empty_window_success (DB.mk [] [Headline.mk 1 0 "old" none none 0 0] [] 2 0)
    (3 * msPerDay) (by decide)

/-- C10: the `/api/headlines` response carries at most 100 entries in
total; each bucket of `data` is keyed by the source's platform name and
holds the entries of exactly the selected headlines with that source
name (so every returned headline sits in exactly one bucket); `count`
equals the total number of entries across all buckets; and every entry's
ranks list has at most 5 elements. -/
theorem api_headlines_shape (db : DB) (now : Nat) :
    (GET db now).success = true
    ∧ (GET db now).count = (selectedHeadlines db now).length
    ∧ (GET db now).count ≤ 100
    ∧ (∀ n, List.lookup n (GET db now).data = bucketOpt db now n)
    ∧ sumLens (GET db now).data = (GET db now).count
    ∧ ∀ p ∈ (GET db now).data, ∀ e ∈ p.2, e.ranks.length ≤ 5 := by
  refine ⟨rfl, rfl, ?_, ?_, ?_, ?_⟩
  · show (selectedHeadlines db now).length ≤ 100
    unfold selectedHeadlines
    exact List.length_take_le 100 _
  · intro n
    show List.lookup n (buildBySource db (selectedHeadlines db now)) = bucketOpt db now n
    unfold buildBySource
    rw [lookup_groupFold]
    simp only [List.lookup_nil, combineBucket]
    unfold bucketOpt bucketSpec
    by_cases hany : (selectedHeadlines db now).any (fun h => sourceName db h == n) = true
    · rw [if_pos hany]
      obtain ⟨h0, hh0, hp0⟩ := List.any_eq_true.mp hany
      have hmem : h0 ∈ (selectedHeadlines db now).filter (fun h => sourceName db h == n) :=
        List.mem_filter.mpr ⟨hh0, hp0⟩
      cases hl : (selectedHeadlines db now).filter (fun h2 => sourceName db h2 == n) with
      | nil => rw [hl] at hmem; cases hmem
      | cons a t => rfl
    · rw [if_neg hany]
      have hfil : (selectedHeadlines db now).filter (fun h2 => sourceName db h2 == n) = [] := by
        rw [List.filter_eq_nil_iff]
        intro a ha2 hpa
        exact hany (List.any_eq_true.mpr ⟨a, ha2, hpa⟩)
      rw [hfil]
      rfl
  · show sumLens (buildBySource db (selectedHeadlines db now))
      = (selectedHeadlines db now).length
    unfold buildBySource
    have := (buildFold_nodup_sum db (selectedHeadlines db now) [] (by simp)).2
    simpa [sumLens] using this
  · exact buildBySource_entries db (selectedHeadlines db now)
      (fun e => e.ranks.length ≤ 5)
      (fun h _ => entryOf_ranks_length_le db h)

/-- Witness for C10, on a store with one source, one fresh headline and
one occurrence: the single bucket is keyed by the platform name and its
entry carries at most 5 ranks. -/
theorem api_headlines_shape_witness :
    (Entry.mk 1 "t1" none none 5 5 [3]).ranks.length ≤ 5 :=
  (api_headlines_shape
      (DB.mk [Source.mk 0 "toutiao" "今日头条" true]
        [Headline.mk 1 0 "t1" none none 5 5] [Occurrence.mk 1 1 3 5] 2 2) 10).2.2.2.2.2
    ("今日头条", [Entry.mk 1 "t1" none none 5 5 [3]]) (by decide)
    (Entry.mk 1 "t1" none none 5 5 [3]) (by decide)

instance : IsTotal Occurrence (fun a b : Occurrence => b.crawledAt ≤ a.crawledAt) :=
  ⟨fun a b => le_total b.crawledAt a.crawledAt⟩

instance : IsTrans Occurrence (fun a b : Occurrence => b.crawledAt ≤ a.crawledAt) :=
  ⟨fun _ _ _ h1 h2 => le_trans h2 h1⟩

/-- C3 counterexample: the entries the route serializes carry an extra
`id` field in front of the claimed six, and the response body's keys are
exactly `success`, `count`, `data` — there is no group-name mapping in
the payload. -/
theorem report_payload_fields_counterexample :
    objKeys (entryJson (Entry.mk 1 "t" none none 0 0 [])) ≠ specEntryFields
    ∧ objKeys (entryJson (Entry.mk 1 "t" none none 0 0 []))
        = ["id", "title", "url", "mobileUrl", "firstSeenAt", "lastSeenAt", "ranks"]
    ∧ objKeys (responseJson (DB.mk [] [] [] 0 0) 0) = ["success", "count", "data"] :=
  ⟨by decide, rfl, rfl⟩

/-- C3 amended: each serialized entry carries exactly the fields `id`,
`title`, `url`, `mobileUrl`, `firstSeenAt`, `lastSeenAt`, `ranks`; the
response body carries exactly `success`, `count` and `data` (no group
mapping); and each entry's ranks are read off the headline's occurrences
ordered by observation timestamp, most recent first, truncated to 5. -/
theorem report_payload_shape_amended (db : DB) (now : Nat) (e : Entry) (h : Headline) :
    objKeys (entryJson e)
      = ["id", "title", "url", "mobileUrl", "firstSeenAt", "lastSeenAt", "ranks"]
    ∧ objKeys (responseJson db now) = ["success", "count", "data"]
    ∧ (entryOf db h).ranks = ((sortedOccurrences db h).take 5).map (fun oc => oc.rank)
    ∧ List.Sorted (fun a b => b.crawledAt ≤ a.crawledAt) (sortedOccurrences db h)
    ∧ ∀ oc ∈ sortedOccurrences db h, oc ∈ db.occurrences ∧ oc.headlineId = h.id := by
  refine ⟨rfl, rfl, rfl, ?_, ?_⟩
  · unfold sortedOccurrences
    exact List.sorted_insertionSort _ _
  · intro oc hoc
    unfold sortedOccurrences at hoc
    rw [List.mem_insertionSort] at hoc
    have := List.mem_filter.mp hoc
    exact ⟨this.1, by simpa using this.2⟩

end TrendRadar
